import Mathlib

/-!
Verification development for the lrclib importer script (src/upload.py).

The Python source is shallowly embedded: strings are `List Char`, the
regular expressions of the source are translated into executable
matchers, and the stateful pipeline `process_track` is embedded as a
pure function from its collaborator answers to the list of observable
events it performs.  Filesystem state (for `delete_empty_dirs`) is a
pair of path lists.
-/

namespace Upload

/-- Python whitespace (`str.strip`, regex `\s`): ASCII whitespace plus the
Unicode space characters.  -/
def pyIsSpace (c : Char) : Bool :=
  c = ' ' || c = '\t' || c = '\n' || c = '\u000D' ||
  c = '\u000B' || c = '\u000C' ||
  c = '\u001C' || c = '\u001D' || c = '\u001E' || c = '\u001F' ||
  c = '\u0085' || c = '\u00A0' || c = '\u1680' ||
  ('\u2000' ≤ c && c ≤ '\u200A') ||
  c = '\u2028' || c = '\u2029' || c = '\u202F' || c = '\u205F' ||
  c = '\u3000'

/-- Python `str.strip()`: drop whitespace from both ends. -/
def pyStrip (l : List Char) : List Char :=
  ((l.dropWhile pyIsSpace).reverse.dropWhile pyIsSpace).reverse

/-- ASCII lower-casing of one character, as applied by `str.lower()` on the
alphabets this script manipulates (CJK text is case-free). -/
def pyLowerChar (c : Char) : Char :=
  match c with
  | 'A' => 'a' | 'B' => 'b' | 'C' => 'c' | 'D' => 'd' | 'E' => 'e' | 'F' => 'f'
  | 'G' => 'g' | 'H' => 'h' | 'I' => 'i' | 'J' => 'j' | 'K' => 'k' | 'L' => 'l'
  | 'M' => 'm' | 'N' => 'n' | 'O' => 'o' | 'P' => 'p' | 'Q' => 'q' | 'R' => 'r'
  | 'S' => 's' | 'T' => 't' | 'U' => 'u' | 'V' => 'v' | 'W' => 'w' | 'X' => 'x'
  | 'Y' => 'y' | 'Z' => 'z' | c => c

/-- Python `str.lower()`, character-wise. -/
def pyLower (l : List Char) : List Char := l.map pyLowerChar

/-- Replace every maximal run of characters satisfying `p` by a single
space — the effect of `re.sub(r"X+", " ", s)` for a character class `X`,
and of `re.sub(r"\s+", " ", s)` when `p` is `pyIsSpace`.  The flag
records whether the previous character belonged to a run (the first
character of a run emits the space, the rest emit nothing). -/
def runsSubGo (p : Char → Bool) : Bool → List Char → List Char
  | _, [] => []
  | inRun, c :: cs =>
    if p c then (if inRun then runsSubGo p true cs else ' ' :: runsSubGo p true cs)
    else c :: runsSubGo p false cs

def runsSub (p : Char → Bool) (l : List Char) : List Char := runsSubGo p false l

/-- The full-width-punctuation replacement table of `normalize_name`
(upload.py lines 69-79), applied character-wise; each key and value of the
Python dict is a single character and no value is itself a key, so the
sequence of `str.replace` calls is one character map. -/
def replPunct (c : Char) : Char :=
  match c with
  | '（' => '(' | '）' => ')' | '【' => '[' | '】' => ']' | '：' => ':'
  | '。' => '.' | '，' => ',' | '！' => '!' | '？' => '?' | c => c

/-- `normalize_name` (upload.py lines 66-83): strip, lower-case, map
full-width punctuation to ASCII, collapse whitespace runs to one space. -/
def normalize_name (l : List Char) : List Char :=
  runsSub pyIsSpace (((pyStrip l).map pyLowerChar).map replPunct)

/-- Opening delimiters of the bracket-stripping regex of
`normalize_title_loose` (upload.py line 97). -/
def isOpener (c : Char) : Bool :=
  c = '(' || c = '（' || c = '【' || c = '['

/-- Closing delimiters of the bracket-stripping regex (any family). -/
def isCloser (c : Char) : Bool :=
  c = ')' || c = '）' || c = '】' || c = ']'

/-- Scan for the nearest closing delimiter (the non-greedy `.*?`); `.` does
not cross a line feed, so the search aborts at `'\n'`.  Returns the suffix
after the closer. -/
def findCloser : List Char → Option (List Char)
  | [] => none
  | c :: cs => if isCloser c then some cs
               else if c = '\n' then none
               else findCloser cs

/-- `re.sub(r"[\(\（【\[].*?[\)\）】\]]", "", s)` (upload.py line 97): the
left-to-right, non-overlapping scan of `re.sub`; at an opener with a
reachable closer the whole span is dropped, otherwise the character is
kept.  Fuelled by the input length (each step consumes at least one
character, so the initial fuel always suffices). -/
def bracketSubF : Nat → List Char → List Char
  | 0, l => l
  | _ + 1, [] => []
  | n + 1, c :: cs =>
    if isOpener c then
      match findCloser cs with
      | some rest => bracketSubF n rest
      | none => c :: bracketSubF n cs
    else c :: bracketSubF n cs

def bracketSub (l : List Char) : List Char := bracketSubF l.length l

/-- The token alternation `(remix|remaster|live|version|ver\.?)` (upload.py
line 100), tried at one position in the alternation order of the regex;
returns the suffix after the matched token. -/
def tokenAt (l : List Char) : Option (List Char) :=
  if List.isPrefixOf ( "remix".data) l then some (l.drop 5)
  else if List.isPrefixOf ( "remaster".data) l then some (l.drop 8)
  else if List.isPrefixOf ( "live".data) l then some (l.drop 4)
  else if List.isPrefixOf ( "version".data) l then some (l.drop 7)
  else if List.isPrefixOf ( "ver.".data) l then some (l.drop 4)
  else if List.isPrefixOf ( "ver".data) l then some (l.drop 3)
  else none

/-- `re.sub` with the token alternation, replacing by the empty string:
scan left to right, drop each non-overlapping match (fuelled by the input
length). -/
def tokenSubF : Nat → List Char → List Char
  | 0, l => l
  | _ + 1, [] => []
  | n + 1, c :: cs =>
    match tokenAt (c :: cs) with
    | some rest => tokenSubF n rest
    | none => c :: tokenSubF n cs

def tokenSub (l : List Char) : List Char := tokenSubF l.length l

/-- Python's Unicode `\w` (letters, digits, underscore) restricted to the
alphabets occurring in this corpus: ASCII alphanumerics, underscore, CJK
ideographs, kana, Hangul and full-width alphanumerics. -/
def pyIsWordChar (c : Char) : Bool :=
  c.isAlphanum || c = '_' ||
  ('一' ≤ c && c ≤ '鿿') ||
  ('ぁ' ≤ c && c ≤ 'ゖ') ||
  ('ァ' ≤ c && c ≤ 'ヺ') || c = 'ー' ||
  ('가' ≤ c && c ≤ '힣') ||
  ('０' ≤ c && c ≤ '９') || ('Ａ' ≤ c && c ≤ 'Ｚ') || ('ａ' ≤ c && c ≤ 'ｚ')

/-- The character class `[^\w一-龥]` of upload.py line 103. -/
def nonWordCJK (c : Char) : Bool :=
  !(pyIsWordChar c || ('一' ≤ c && c ≤ '龥'))

/-- `normalize_title_loose` (upload.py lines 86-107): lower-case and strip,
delete bracketed spans, delete the version/remix tokens, replace runs of
non-word characters by a space, collapse whitespace and strip. -/
def normalize_title_loose (l : List Char) : List Char :=
  pyStrip (runsSub pyIsSpace (runsSub nonWordCJK (tokenSub (bracketSub (pyStrip (pyLower l))))))

/-- `\s+` after the optional dot in the feat-rewrite of `split_artists`
(upload.py line 174): one whitespace character, then any further run. -/
def wsPlus (l : List Char) : Option (List Char) :=
  match l with
  | c :: cs => if pyIsSpace c then some (cs.dropWhile pyIsSpace) else none
  | [] => none

/-- `\.?\s+`: greedy optional dot, then mandatory whitespace. -/
def dotWs (l : List Char) : Option (List Char) :=
  match l with
  | '.' :: r => wsPlus r
  | r => wsPlus r

/-- The alternation `(feat|featuring|ft)\.?\s+` at one position, with the
backtracking order of the regex engine (a failing `feat` arm falls back to
`featuring`, then `ft`). -/
def featAt (l : List Char) : Option (List Char) :=
  match (if List.isPrefixOf ( "feat".data) l then dotWs (l.drop 4) else none) with
  | some r => some r
  | none =>
    match (if List.isPrefixOf ( "featuring".data) l then dotWs (l.drop 9) else none) with
    | some r => some r
    | none => if List.isPrefixOf ( "ft".data) l then dotWs (l.drop 2) else none

/-- `re.sub(r"\b(feat|featuring|ft)\.?\s+", ",", s)`, fuelled scan keeping
track of whether the previous character is a word character (for `\b`;
after a replacement the previous character is the matched whitespace). -/
def featSubF : Nat → Bool → List Char → List Char
  | 0, _, l => l
  | _ + 1, _, [] => []
  | n + 1, prevWord, c :: cs =>
    if !prevWord then
      match featAt (c :: cs) with
      | some rest => ',' :: featSubF n false rest
      | none => c :: featSubF n (pyIsWordChar c) cs
    else c :: featSubF n (pyIsWordChar c) cs

def featSub (l : List Char) : List Char := featSubF l.length false l

/-- Python `str.replace(pat, ",")` for a fixed non-empty pattern: the
left-to-right non-overlapping scan. -/
def replaceWithComma : Nat → List Char → List Char → List Char
  | 0, _, l => l
  | _ + 1, _, [] => []
  | n + 1, pat, c :: cs =>
    if pat.isPrefixOf (c :: cs) then ',' :: replaceWithComma n pat ((c :: cs).drop pat.length)
    else c :: replaceWithComma n pat cs

def replaceSep (pat l : List Char) : List Char := replaceWithComma l.length pat l

/-- `split_artists` (upload.py lines 165-191): strip+lower, rewrite feat
variants to a comma, replace the connector tokens by commas, split on
commas, strip and drop empty pieces, deduplicate keeping first
occurrences. -/
def split_artists (s : List Char) : List (List Char) :=
  let s1 := pyLower (pyStrip s)
  let s2 := featSub s1
  let seps : List String := [ " & ", " 和 ", "/", ";", "、", " x ", " × ", " X "]
  let s3 := seps.foldl (fun acc sep => replaceSep sep.data acc) s2
  let s4 := replaceSep ( "，".data) s3
  let parts := ((s4.splitOn ',').map pyStrip).filter (fun a => !a.isEmpty)
  parts.foldl (fun acc a => if acc.contains a then acc else acc ++ [a]) []

/-- `match_artists` (upload.py lines 194-202): the normalized artist sets
intersect. -/
def match_artists (xs ys : List (List Char)) : Bool :=
  xs.any (fun a => ys.any (fun b => normalize_name a == normalize_name b))

/-- Split a filename stem on the first occurrence of `" - "`
(`stem.split(" - ", 1)`). -/
def splitFirstSep : List Char → Option (List Char × List Char)
  | [] => none
  | c :: cs =>
    if List.isPrefixOf ( " - ".data) (c :: cs) then some ([], (c :: cs).drop 3)
    else
      match splitFirstSep cs with
      | some (a, b) => some (c :: a, b)
      | none => none

/-- `parse_lrc_filename` (upload.py lines 207-219): `Artist - Title`, the
title part kept raw. -/
def parse_lrc_filename (stem : List Char) : List (List Char) × List Char :=
  match splitFirstSep stem with
  | none => ([], [])
  | some (a, t) => (split_artists a, t)

/-- Python's substring containment `a in b`, as a scan. -/
def isSubstring : List Char → List Char → Bool
  | n, [] => n.isEmpty
  | n, c :: cs => n.isPrefixOf (c :: cs) || isSubstring n cs

/-- The similarity score `find_lrc_for_track` assigns to a candidate
title (upload.py lines 254-258), given the loosely normalized track
title `t`. -/
def candScore (sim : List Char → List Char → ℚ) (t lt : List Char) : ℚ :=
  if isSubstring t lt || isSubstring lt t then 19/20 else sim t lt

/-- One iteration of the candidate loop of `find_lrc_for_track`
(upload.py lines 242-263): parse the stem, apply the artist and
title filters, and score the title. -/
def candFun (sim : List Char → List Char → ℚ) (t : List Char)
    (mas : List (List Char)) (stem : List Char) : Option (List Char × ℚ) :=
  let pr := parse_lrc_filename stem
  if pr.2.isEmpty || pr.1.isEmpty then none
  else if !match_artists mas pr.1 then none
  else
    let lt := normalize_title_loose pr.2
    if lt.isEmpty then none
    else
      let sc : ℚ := candScore sim t lt
      if sc < 3/5 then none else some (stem, sc)

/-- The candidate-collection loop of `find_lrc_for_track` (upload.py lines
240-269), parameterized by the `difflib.SequenceMatcher` ratio `sim`
(an external library collaborator).  `pool` is the list of filename stems
in traversal order; the result is the `(stem, similarity)` list after the
final stable descending sort. -/
def find_lrc_candidates (sim : List Char → List Char → ℚ) (track artist : List Char)
    (pool : List (List Char)) : List (List Char × ℚ) :=
  let t := normalize_title_loose track
  if t.isEmpty then []
  else
    List.insertionSort (fun a b => b.2 ≤ a.2)
      (pool.filterMap (candFun sim t (split_artists artist)))

/-- `TAG_RE` (upload.py line 291): `\[\d{2}:\d{2}(?:\.\d{1,3})?\]` matched
at the head; the greedy fraction is deterministic because a digit can
never satisfy the following `\]`.  Returns the suffix after the tag. -/
def fracTail : Nat → List Char → Option (List Char)
  | _, ']' :: r => some r
  | k + 1, e :: r => if e.isDigit then fracTail k r else none
  | _, _ => none

def matchTag : List Char → Option (List Char)
  | '[' :: d1 :: d2 :: ':' :: d3 :: d4 :: rest =>
    if d1.isDigit && d2.isDigit && d3.isDigit && d4.isDigit then
      match rest with
      | ']' :: r => some r
      | '.' :: e1 :: r1 => if e1.isDigit then fracTail 2 r1 else none
      | _ => none
    else none
  | _ => none

/-- `TAG_RE.sub("", s)`: remove every non-overlapping tag match, scanning
left to right (fuelled by the input length). -/
def tagSubF : Nat → List Char → List Char
  | 0, l => l
  | _ + 1, [] => []
  | n + 1, c :: cs =>
    match matchTag (c :: cs) with
    | some rest => tagSubF n rest
    | none => c :: tagSubF n cs

def tagSub (l : List Char) : List Char := tagSubF l.length l

/-- `\d*\]` (the tail of the `-\d+` run inside the credit-line tag). -/
def digitsThen : List Char → Option (List Char)
  | ']' :: r => some r
  | e :: r => if e.isDigit then digitsThen r else none
  | [] => none

/-- After the first fraction digit of the credit-line tag
(`\.\d{1,3}(?:-\d+)?`): up to `k` more digits, an optional `-\d+`, then
`]`. -/
def creditFracTail : Nat → List Char → Option (List Char)
  | _, ']' :: r => some r
  | _, '-' :: e :: r => if e.isDigit then digitsThen r else none
  | k + 1, e :: r => if e.isDigit then creditFracTail k r else none
  | _, _ => none

/-- The leading timestamp tag of `CREDIT_LINE_RE` (upload.py lines
294-296): `\[\d{2}:\d{2}(?:\.\d{1,3}(?:-\d+)?)?\]`. -/
def creditTagEnd : List Char → Option (List Char)
  | '[' :: d1 :: d2 :: ':' :: d3 :: d4 :: rest =>
    if d1.isDigit && d2.isDigit && d3.isDigit && d4.isDigit then
      match rest with
      | ']' :: r => some r
      | '.' :: e1 :: r1 => if e1.isDigit then creditFracTail 2 r1 else none
      | _ => none
    else none
  | _ => none

/-- `\s*[:：]\s*.+$` once the key has ended in whitespace: only further
whitespace may precede the colon, and at least one character must follow
it (`.` cannot fail on a line, which contains no newline). -/
def creditAfterWs : List Char → Bool
  | [] => false
  | c :: cs =>
    if pyIsSpace c then creditAfterWs cs
    else if c = ':' || c = '：' then !cs.isEmpty
    else false

/-- Inside the non-greedy key `[^:\s]+?` with at least one character
consumed: a colon ends the key (a full-width colon can also extend it,
but whenever at least one character follows, the shorter parse already
succeeds, so the two agree); whitespace forces `\s*[:：]`. -/
def creditKeyTail : List Char → Bool
  | [] => false
  | c :: cs =>
    if c = ':' || c = '：' then !cs.isEmpty
    else if pyIsSpace c then creditAfterWs cs
    else creditKeyTail cs

/-- `CREDIT_LINE_RE.match(s)` as a Boolean: tag, optional whitespace, a
non-empty `[^:\s]` key, optional whitespace, a colon, and a non-empty
value. -/
def creditMatch (s : List Char) : Bool :=
  match creditTagEnd s with
  | none => false
  | some rest =>
    match rest.dropWhile pyIsSpace with
    | [] => false
    | c :: cs => if c = ':' then false else creditKeyTail cs

/-- `:.+\]$` tail of the metadata-tag pattern: at least one character
between the colon and the final `]`. -/
def metaTail (t : List Char) : Bool :=
  t.length ≥ 2 && (t.getLast? == some ']')

/-- `re.match(r"^\[[a-zA-Z]{2,3}:.+\]$", s)` (upload.py line 353). -/
def metaTagMatch (s : List Char) : Bool :=
  match s with
  | '[' :: a :: b :: ':' :: tail => a.isAlpha && b.isAlpha && metaTail tail
  | '[' :: a :: b :: c :: ':' :: tail => a.isAlpha && b.isAlpha && c.isAlpha && metaTail tail
  | _ => false

/-- `PURE_MUSIC_KEYWORDS` (upload.py lines 298-305). -/
def PURE_MUSIC_KEYWORDS : List (List Char) :=
  [ "纯音乐，请欣赏".data, "純音樂，請欣賞".data, "純音樂 請欣賞".data,
    "純音樂".data, "instrumental".data, "インストゥルメンタル".data ]

/-- The per-line keyword scan (upload.py lines 342-346): strip all
timestamp tags from the stripped line, strip and lower-case the residue,
and test each keyword for containment. -/
def kwHit (s : List Char) : Bool :=
  let sNoTag := pyLower (pyStrip (tagSub s))
  PURE_MUSIC_KEYWORDS.any (fun kw => isSubstring (pyLower kw) sNoTag)

/-- The accumulators of `parse_lrc_file` during the line scan. -/
structure ParseState where
  synced : List (List Char)
  plain : List (List Char)
  isPureMusic : Bool
deriving Repr, DecidableEq

/-- One iteration of the `for line in raw.splitlines()` loop of
`parse_lrc_file` (upload.py lines 333-361). -/
def parseStep (st : ParseState) (line : List Char) : ParseState :=
  let s := pyStrip line
  if s.isEmpty then
    { st with synced := st.synced ++ [[]], plain := st.plain ++ [[]] }
  else
    let st1 := { st with isPureMusic := st.isPureMusic || kwHit s }
    if creditMatch s then st1
    else if metaTagMatch s then { st1 with synced := st1.synced ++ [line] }
    else
      let noTag := pyStrip (tagSub s)
      { st1 with synced := st1.synced ++ [line], plain := st1.plain ++ [noTag] }

/-- The whole line scan, from the empty accumulators. -/
def parseLrcAux (lines : List (List Char)) : ParseState :=
  lines.foldl parseStep ⟨[], [], false⟩

/-- `raw.replace("\r\n", "\n").replace("\r", "\n")` fused into one scan
(the two sequential replaces agree with it because a surviving `\r` is
always lone). -/
def normNl : List Char → List Char
  | [] => []
  | '\u000D' :: '\n' :: r => '\n' :: normNl r
  | '\u000D' :: r => '\n' :: normNl r
  | c :: r => c :: normNl r

/-- Split on `'\n'`, keeping a final empty segment. -/
def splitNlCore : List Char → List (List Char)
  | [] => [[]]
  | '\n' :: r => [] :: splitNlCore r
  | c :: r =>
    match splitNlCore r with
    | x :: xs => (c :: x) :: xs
    | [] => [[c]]

/-- Python `str.splitlines()` on text whose line endings are already
normalized to `'\n'`: no trailing empty line. -/
def pySplitlines (l : List Char) : List (List Char) :=
  if l.isEmpty then []
  else
    let p := splitNlCore l
    if p.getLast? == some [] then p.dropLast else p

/-- The post-scan trimming of the plain accumulator (upload.py lines
368-371): pop empty entries from the front, then from the back. -/
def trimEmpty (l : List (List Char)) : List (List Char) :=
  ((l.dropWhile List.isEmpty).reverse.dropWhile List.isEmpty).reverse

/-- `"\n".join(lines)`. -/
def joinLines (l : List (List Char)) : List Char :=
  List.intercalate ['\n'] l

/-- The return step of `parse_lrc_file` (upload.py lines 363-375). -/
def renderResult (st : ParseState) : List Char × List Char :=
  if st.isPureMusic then ([], [])
  else (joinLines st.synced, joinLines (trimEmpty st.plain))

/-- `parse_lrc_file` on decoded content (the byte decoding of
`read_text_any` is the I/O collaborator): returns
`(syncedLyrics, plainLyrics)`. -/
def parse_lrc_content (l : List Char) : List Char × List Char :=
  renderResult (parseLrcAux (pySplitlines (normNl l)))

def parse_lrc_file (s : String) : String × String :=
  let p := parse_lrc_content s.data
  (String.mk p.1, String.mk p.2)

/-- A lyric record returned by the lookup collaborator (duration omitted:
`check_duration` only logs). -/
structure LyricRecord where
  plainLyrics : String
  syncedLyrics : String
deriving Repr, DecidableEq

/-- The observable actions of `process_track`, in order: preview prints,
the y/N confirmation prompts (`input(...)`), calls to `uploader.upload`,
and calls to `move_after_done` (the only filesystem mutation: moves plus
empty-directory pruning). -/
inductive Event where
  | previewE
  | confirmPrompt
  | uploadAttempt
  | moveFiles
deriving Repr, DecidableEq

/-- The answers of the collaborators of `process_track` for one track:
the two lookup results, the `find_lrc_for_track` result (its internal
candidate-choice dialogue is inside the collaborator), the user's answers
to the two confirmation prompts, and whether `uploader.upload` would
succeed. -/
structure Collab where
  cached : Option LyricRecord
  external : Option LyricRecord
  localLrc : Option String
  answerExternal : Bool
  answerLocal : Bool
  uploadOk : Bool
deriving Repr, DecidableEq

/-- Steps 3-5 of `process_track` (upload.py lines 584-610): local LRC
lookup, parse+preview, dry-run check, confirmation, upload, relocation. -/
def localPhase (c : Collab) (autoYes dryRun : Bool) : List Event :=
  match c.localLrc with
  | none => []
  | some _ =>
    [Event.previewE, Event.previewE] ++
    if dryRun then []
    else
      let pr := if autoYes then [] else [Event.confirmPrompt]
      if !autoYes && !c.answerLocal then pr
      else pr ++ [Event.uploadAttempt] ++
        (if c.uploadOk then [Event.moveFiles] else [])

/-- `process_track` (upload.py lines 535-610) as the event trace it
produces.  Cached branch (lines 539-547): relocate, then preview twice.
External branch (lines 550-582): preview twice, prompt unless auto-yes,
then on acceptance check dry-run, upload, and relocate on success; on
decline fall through to the local phase. -/
def process_track (c : Collab) (autoYes dryRun : Bool) : List Event :=
  match c.cached with
  | some _ => [Event.moveFiles, Event.previewE, Event.previewE]
  | none =>
    match c.external with
    | some _ =>
      let evs := [Event.previewE, Event.previewE] ++
        (if autoYes then [] else [Event.confirmPrompt])
      let useExternal := autoYes || c.answerExternal
      if useExternal then
        if dryRun then evs
        else evs ++ [Event.uploadAttempt] ++
          (if c.uploadOk then [Event.moveFiles] else [])
      else evs ++ localPhase c autoYes dryRun
    | none => localPhase c autoYes dryRun

/-- A filesystem path, as its components. -/
abbrev FPath := List String

/-- A snapshot of the directory tree: the existing directories and files. -/
structure FS where
  dirs : List FPath
  files : List FPath
deriving Repr, DecidableEq

/-- `d` lies strictly under `root`. -/
def strictUnder (root d : FPath) : Bool :=
  root.isPrefixOf d && !(d == root)

/-- `next(d.iterdir())` succeeds: some entry lies directly inside `d`. -/
def hasChild (fs : FS) (d : FPath) : Bool :=
  (fs.dirs ++ fs.files).any (fun p => p.length == d.length + 1 && d.isPrefixOf p)

/-- One iteration of the deletion loop of `delete_empty_dirs` (upload.py
lines 482-489): `rmdir` the directory if it has no entry. -/
def pruneStep (s : FS) (d : FPath) : FS :=
  if hasChild s d then s else { s with dirs := s.dirs.erase d }

/-- `sorted(key=lambda p: len(p.parts), reverse=True)`: deepest first. -/
def sortDeep (l : List FPath) : List FPath :=
  List.insertionSort (fun a b => b.length ≤ a.length) l

/-- `delete_empty_dirs(root)` with the default `keep_root=True` used by
both call sites (upload.py lines 468-498, 529-530): materialize the list
of strict descendants of `root` that are directories, deepest first, and
remove each one that is empty when visited. -/
def delete_empty_dirs (fs : FS) (root : FPath) : FS :=
  if root ∈ fs.dirs then
    (sortDeep (fs.dirs.filter (fun d => strictUnder root d))).foldl pruneStep fs
  else fs

/-- Some file lies strictly below `d`. -/
def hasFileBelow (fs : FS) (d : FPath) : Bool :=
  fs.files.any (fun f => d.isPrefixOf f && !(f == d))

/-- The combined character map of `normalize_name` (lower-case, then the
punctuation table). -/
def nmChar (c : Char) : Char := replPunct (pyLowerChar c)

/-- A processed line reaches the metadata-tag branch of the scan loop
(upload.py lines 352-354): non-blank, not a credit line, and matching the
metadata-tag pattern.  Such a line is kept in the synced accumulator
only. -/
def isMetaKept (line : List Char) : Bool :=
  let s := pyStrip line
  !s.isEmpty && !creditMatch s && metaTagMatch s

/-- The keyword scan outcome for one raw line: blank lines skip the scan,
other lines are stripped and tested by `kwHit`. -/
def lineKwHit (line : List Char) : Bool :=
  let s := pyStrip line
  !s.isEmpty && kwHit s

/-- The filter a pool stem must pass in `find_lrc_for_track` (upload.py
lines 242-263), given the track's normalized title `t` and artist list
`mas`. -/
def candAccepted (sim : List Char → List Char → ℚ) (t : List Char)
    (mas : List (List Char)) (stem : List Char) : Prop :=
  (parse_lrc_filename stem).2 ≠ [] ∧ (parse_lrc_filename stem).1 ≠ [] ∧
  match_artists mas (parse_lrc_filename stem).1 = true ∧
  normalize_title_loose (parse_lrc_filename stem).2 ≠ [] ∧
  ¬ candScore sim t (normalize_title_loose (parse_lrc_filename stem).2) < 3/5


/-! ## Character-level facts about the `normalize_name` pipeline -/

theorem pyLowerChar_cases (c : Char) :
    pyLowerChar c = c ∨
      pyLowerChar c ∈ ['a','b','c','d','e','f','g','h','i','j','k','l','m',
        'n','o','p','q','r','s','t','u','v','w','x','y','z'] := by
  unfold pyLowerChar
  split <;> first
    | (left; rfl)
    | (right; decide)

theorem replPunct_cases (c : Char) :
    replPunct c = c ∨ replPunct c ∈ ['(',')','[',']',':','.',',','!','?'] := by
  unfold replPunct
  split <;> first
    | (left; rfl)
    | (right; decide)

/-- The output alphabet of `nmChar` on characters it changes. -/
def nmImage : List Char :=
  ['a','b','c','d','e','f','g','h','i','j','k','l','m',
   'n','o','p','q','r','s','t','u','v','w','x','y','z',
   '(',')','[',']',':','.',',','!','?']

theorem nmChar_cases (c : Char) : nmChar c = c ∨ nmChar c ∈ nmImage := by
  have hsub1 : ∀ x ∈ ['(',')','[',']',':','.',',','!','?'], x ∈ nmImage := by decide
  have hfix : ∀ x ∈ ['a','b','c','d','e','f','g','h','i','j','k','l','m',
      'n','o','p','q','r','s','t','u','v','w','x','y','z'], replPunct x = x := by decide
  have hsub2 : ∀ x ∈ ['a','b','c','d','e','f','g','h','i','j','k','l','m',
      'n','o','p','q','r','s','t','u','v','w','x','y','z'], x ∈ nmImage := by decide
  unfold nmChar
  rcases pyLowerChar_cases c with h | h
  · rw [h]
    rcases replPunct_cases c with h2 | h2
    · left; exact h2
    · right; exact hsub1 _ h2
  · rw [hfix _ h]
    right; exact hsub2 _ h

theorem nmChar_fix : ∀ c ∈ nmImage, nmChar c = c := by decide

theorem nmChar_idem (c : Char) : nmChar (nmChar c) = nmChar c := by
  rcases nmChar_cases c with h | h
  · rw [h]; exact h
  · exact nmChar_fix _ h

theorem nmChar_space {c : Char} (h : pyIsSpace c = false) : pyIsSpace (nmChar c) = false := by
  rcases nmChar_cases c with h2 | h2
  · rw [h2]; exact h
  · have hall : ∀ x ∈ nmImage, pyIsSpace x = false := by decide
    exact hall _ h2

/-! ## Facts about `runsSubGo` (whitespace-run collapsing) -/

theorem runsSubGo_idem (p : Char → Bool) (hp : p ' ' = true) :
    ∀ l : List Char,
      runsSubGo p false (runsSubGo p false l) = runsSubGo p false l ∧
      runsSubGo p false (runsSubGo p true l) = runsSubGo p true l ∧
      runsSubGo p true (runsSubGo p true l) = runsSubGo p true l := by
  intro l
  induction l with
  | nil => simp [runsSubGo]
  | cons c cs ih =>
    obtain ⟨ih1, ih2, ih3⟩ := ih
    by_cases hc : p c = true
    · have e1 : runsSubGo p false (c :: cs) = ' ' :: runsSubGo p true cs := by
        simp [runsSubGo, hc]
      have e2 : runsSubGo p true (c :: cs) = runsSubGo p true cs := by
        simp [runsSubGo, hc]
      have e4 : ∀ X, runsSubGo p false (' ' :: X) = ' ' :: runsSubGo p true X := by
        intro X; simp [runsSubGo, hp]
      refine ⟨?_, ?_, ?_⟩
      · rw [e1, e4, ih3]
      · rw [e2, ih2]
      · rw [e2, ih3]
    · have hcf : p c = false := by simpa using hc
      have e3 : ∀ b, runsSubGo p b (c :: cs) = c :: runsSubGo p false cs := by
        intro b; simp [runsSubGo, hcf]
      have e5 : ∀ b X, runsSubGo p b (c :: X) = c :: runsSubGo p false X := by
        intro b X; simp [runsSubGo, hcf]
      refine ⟨?_, ?_, ?_⟩ <;> rw [e3, e5, ih1]

theorem mem_runsSubGo {p : Char → Bool} :
    ∀ {l : List Char} {b : Bool} {x : Char}, x ∈ runsSubGo p b l → x = ' ' ∨ x ∈ l := by
  intro l
  induction l with
  | nil => intro b x h; simp [runsSubGo] at h
  | cons c cs ih =>
    intro b x h
    by_cases hc : p c = true
    · cases b with
      | true =>
        rw [show runsSubGo p true (c :: cs) = runsSubGo p true cs by simp [runsSubGo, hc]] at h
        rcases ih h with h | h
        · exact Or.inl h
        · exact Or.inr (List.mem_cons_of_mem _ h)
      | false =>
        rw [show runsSubGo p false (c :: cs) = ' ' :: runsSubGo p true cs by
          simp [runsSubGo, hc]] at h
        rcases List.mem_cons.mp h with h | h
        · exact Or.inl h
        · rcases ih h with h | h
          · exact Or.inl h
          · exact Or.inr (List.mem_cons_of_mem _ h)
    · have hcf : p c = false := by simpa using hc
      rw [show runsSubGo p b (c :: cs) = c :: runsSubGo p false cs by simp [runsSubGo, hcf]] at h
      rcases List.mem_cons.mp h with h | h
      · exact Or.inr (h ▸ List.mem_cons_self _ _)
      · rcases ih h with h | h
        · exact Or.inl h
        · exact Or.inr (List.mem_cons_of_mem _ h)

theorem getLast?_runsSubGo (p : Char → Bool) :
    ∀ (l : List Char) (b : Bool) (d : Char), l.getLast? = some d → p d = false →
      ∃ e, (runsSubGo p b l).getLast? = some e ∧ p e = false := by
  intro l
  induction l with
  | nil => intro b d h _; simp at h
  | cons c cs ih =>
    intro b d hd hpd
    cases cs with
    | nil =>
      have hdc : c = d := by simpa using hd
      subst hdc
      refine ⟨c, ?_, hpd⟩
      rw [show runsSubGo p b [c] = [c] by simp [runsSubGo, hpd]]
      simp
    | cons c2 cs2 =>
      have hd' : (c2 :: cs2).getLast? = some d := by simpa using hd
      by_cases hc : p c = true
      · obtain ⟨e, he, hpe⟩ := ih true d hd' hpd
        cases b with
        | true =>
          refine ⟨e, ?_, hpe⟩
          rw [show runsSubGo p true (c :: c2 :: cs2) = runsSubGo p true (c2 :: cs2) by
            simp [runsSubGo, hc]]
          exact he
        | false =>
          refine ⟨e, ?_, hpe⟩
          rw [show runsSubGo p false (c :: c2 :: cs2) = ' ' :: runsSubGo p true (c2 :: cs2) by
            simp [runsSubGo, hc]]
          cases hX : runsSubGo p true (c2 :: cs2) with
          | nil => rw [hX] at he; simp at he
          | cons y ys => rw [hX] at he; simpa using he
      · have hcf : p c = false := by simpa using hc
        obtain ⟨e, he, hpe⟩ := ih false d hd' hpd
        refine ⟨e, ?_, hpe⟩
        rw [show runsSubGo p b (c :: c2 :: cs2) = c :: runsSubGo p false (c2 :: cs2) by
          simp [runsSubGo, hcf]]
        cases hX : runsSubGo p false (c2 :: cs2) with
        | nil => rw [hX] at he; simp at he
        | cons y ys => rw [hX] at he; simpa using he

/-! ## Facts about `pyStrip` -/

theorem head_false_of_dropWhile_eq {p : Char → Bool} {c : Char} {t : List Char}
    (h : (c :: t).dropWhile p = c :: t) : p c = false := by
  by_contra hc
  rw [List.dropWhile_cons_of_pos (by simpa using hc)] at h
  have hlen := congrArg List.length h
  have hle := (List.dropWhile_sublist (l := t) p).length_le
  simp at hlen
  omega

theorem dropWhile_self_idem {p : Char → Bool} (l : List Char) :
    (l.dropWhile p).dropWhile p = l.dropWhile p := by
  cases h : l.dropWhile p with
  | nil => simp
  | cons c t =>
    have hc : p c = false := by
      have h2 := List.head?_dropWhile_not p l
      rw [h] at h2
      exact h2
    exact List.dropWhile_cons_of_neg (by simp [hc])

theorem pyStrip_prefix_decomp (l : List Char) :
    ∃ w, pyStrip l ++ w = l.dropWhile pyIsSpace := by
  refine ⟨((l.dropWhile pyIsSpace).reverse.takeWhile pyIsSpace).reverse, ?_⟩
  unfold pyStrip
  rw [← List.reverse_append, List.takeWhile_append_dropWhile, List.reverse_reverse]

theorem front_pyStrip (l : List Char) : (pyStrip l).dropWhile pyIsSpace = pyStrip l := by
  obtain ⟨w, hw⟩ := pyStrip_prefix_decomp l
  cases h : pyStrip l with
  | nil => simp
  | cons c t =>
    have hY : l.dropWhile pyIsSpace = c :: (t ++ w) := by
      rw [← hw, h]; simp
    have hc : pyIsSpace c = false := by
      have h2 : (c :: (t ++ w)).dropWhile pyIsSpace = c :: (t ++ w) := by
        conv_lhs => rw [← hY, dropWhile_self_idem, hY]
      exact head_false_of_dropWhile_eq h2
    exact List.dropWhile_cons_of_neg (by simp [hc])

theorem back_pyStrip (l : List Char) (d : Char)
    (h : (pyStrip l).getLast? = some d) : pyIsSpace d = false := by
  unfold pyStrip at h
  rw [List.getLast?_reverse] at h
  have h2 := List.head?_dropWhile_not pyIsSpace ((l.dropWhile pyIsSpace).reverse)
  rw [h] at h2
  exact h2

theorem pyStrip_eq_self {r : List Char} (h1 : r.dropWhile pyIsSpace = r)
    (h2 : ∀ d, r.getLast? = some d → pyIsSpace d = false) : pyStrip r = r := by
  unfold pyStrip
  rw [h1]
  cases hr : r.reverse with
  | nil =>
    have : r = [] := by simpa using congrArg List.reverse hr
    simp [this]
  | cons c t =>
    have hc : r.getLast? = some c := by
      rw [← List.head?_reverse, hr]; rfl
    rw [List.dropWhile_cons_of_neg (by simp [h2 c hc]), ← hr, List.reverse_reverse]

theorem map_eq_self_of_mem {f : Char → Char} :
    ∀ {r : List Char}, (∀ x ∈ r, f x = x) → r.map f = r := by
  intro r h
  induction r with
  | nil => rfl
  | cons c cs ih =>
    simp only [List.map_cons]
    rw [h c (List.mem_cons_self _ _), ih (fun x hx => h x (List.mem_cons_of_mem _ hx))]

/-- `normalize_name` as a single character map over the stripped input
followed by whitespace collapsing. -/
theorem normalize_name_eq_map (x : List Char) :
    normalize_name x = runsSub pyIsSpace ((pyStrip x).map nmChar) := by
  unfold normalize_name nmChar
  rw [List.map_map]
  rfl

theorem normalize_name_front (l : List Char) :
    (normalize_name l).dropWhile pyIsSpace = normalize_name l := by
  rw [normalize_name_eq_map]
  cases hw : (pyStrip l).map nmChar with
  | nil => simp [runsSub, runsSubGo]
  | cons c cs =>
    have hc : pyIsSpace c = false := by
      cases hps : pyStrip l with
      | nil => rw [hps] at hw; simp at hw
      | cons c0 t =>
        rw [hps] at hw
        simp only [List.map_cons, List.cons.injEq] at hw
        have hc0 : pyIsSpace c0 = false := by
          have hf := front_pyStrip l
          rw [hps] at hf
          exact head_false_of_dropWhile_eq hf
        rw [← hw.1]
        exact nmChar_space hc0
    rw [show runsSub pyIsSpace (c :: cs) = c :: runsSubGo pyIsSpace false cs by
      simp [runsSub, runsSubGo, hc]]
    exact List.dropWhile_cons_of_neg (by simp [hc])

theorem normalize_name_back (l : List Char) (d : Char)
    (h : (normalize_name l).getLast? = some d) : pyIsSpace d = false := by
  rw [normalize_name_eq_map] at h
  cases hlast : ((pyStrip l).map nmChar).getLast? with
  | none =>
    have hnil : (pyStrip l).map nmChar = [] := List.getLast?_eq_none_iff.mp hlast
    rw [hnil] at h
    simp [runsSub, runsSubGo] at h
  | some d0 =>
    have hd0 : pyIsSpace d0 = false := by
      have hlast2 := hlast
      rw [List.getLast?_map] at hlast2
      cases hg : (pyStrip l).getLast? with
      | none => rw [hg] at hlast2; simp at hlast2
      | some c0 =>
        rw [hg] at hlast2
        simp only [Option.map_some', Option.some.injEq] at hlast2
        rw [← hlast2]
        exact nmChar_space (back_pyStrip l c0 hg)
    obtain ⟨e, he, hpe⟩ := getLast?_runsSubGo pyIsSpace _ false d0 hlast hd0
    unfold runsSub at h
    rw [he] at h
    have : e = d := by simpa using h
    rw [← this]
    exact hpe

/-! ## Claim C6 -/

/-- C6 counterexample: `normalize_title_loose` is not idempotent.  On
`"liliveve"` the token removal deletes the `live` at position 2 and the
remaining halves splice into a fresh `live`, which a second application
deletes, so the first application's output is not a fixed point. -/
theorem c6_counterexample_title_loose_not_idempotent :
    normalize_title_loose (normalize_title_loose ( "liliveve".data)) ≠
      normalize_title_loose ( "liliveve".data) := by decide

/-- C6 (amended): `normalize_name` (the spec's `normalizeLoose`) is
idempotent for every input; the companion counterexample shows that
`normalize_title_loose` (the spec's `normalizeTitleLoose`) is not. -/
theorem c6_amended_normalize_name_idempotent (l : List Char) :
    normalize_name (normalize_name l) = normalize_name l := by
  have hA : pyStrip (normalize_name l) = normalize_name l :=
    pyStrip_eq_self (normalize_name_front l) (normalize_name_back l)
  have hB : (normalize_name l).map nmChar = normalize_name l := by
    apply map_eq_self_of_mem
    intro x hx
    have hx2 : x ∈ runsSubGo pyIsSpace false ((pyStrip l).map nmChar) := by
      rw [normalize_name_eq_map] at hx
      exact hx
    rcases mem_runsSubGo hx2 with h | h
    · rw [h]; decide
    · obtain ⟨y, -, hy⟩ := List.mem_map.mp h
      rw [← hy]
      exact nmChar_idem y
  rw [normalize_name_eq_map (normalize_name l), hA, hB, normalize_name_eq_map l]
  exact (runsSubGo_idem pyIsSpace (by decide) _).1

/-! ## Structure of the line scan -/

theorem parseStep_lengths (st : ParseState) (line : List Char) :
    (parseStep st line).synced.length + st.plain.length =
      (parseStep st line).plain.length + st.synced.length +
        (if isMetaKept line then 1 else 0) := by
  unfold parseStep isMetaKept
  by_cases h1 : (pyStrip line).isEmpty = true
  · simp [h1]
    all_goals omega
  · by_cases h2 : creditMatch (pyStrip line) = true
    · simp [h1, h2]
      all_goals omega
    · by_cases h3 : metaTagMatch (pyStrip line) = true
      · simp [h1, h2, h3]
        all_goals omega
      · simp [h1, h2, h3]
        all_goals omega

theorem foldl_parseStep_lengths :
    ∀ (lines : List (List Char)) (st : ParseState),
      (lines.foldl parseStep st).synced.length + st.plain.length =
        (lines.foldl parseStep st).plain.length + st.synced.length +
          List.countP isMetaKept lines := by
  intro lines
  induction lines with
  | nil => intro st; simp; omega
  | cons l ls ih =>
    intro st
    have hstep := parseStep_lengths st l
    have hih := ih (parseStep st l)
    rw [List.foldl_cons]
    rw [List.countP_cons]
    omega

theorem parseStep_pure (st : ParseState) (line : List Char) :
    (parseStep st line).isPureMusic = (st.isPureMusic || lineKwHit line) := by
  unfold parseStep lineKwHit
  by_cases h1 : (pyStrip line).isEmpty = true
  · simp [h1]
  · by_cases h2 : creditMatch (pyStrip line) = true
    · simp [h1, h2]
    · by_cases h3 : metaTagMatch (pyStrip line) = true
      · simp [h1, h2, h3]
      · simp [h1, h2, h3]

theorem foldl_parseStep_pure :
    ∀ (lines : List (List Char)) (st : ParseState),
      (lines.foldl parseStep st).isPureMusic = (st.isPureMusic || lines.any lineKwHit) := by
  intro lines
  induction lines with
  | nil => intro st; simp
  | cons l ls ih =>
    intro st
    rw [List.foldl_cons, ih, parseStep_pure, List.any_cons, Bool.or_assoc]

/-! ## Claim C2 -/

/-- C2 counterexample: on the input `"[ar:x]"` the single line reaches
the metadata-tag branch, which appends to the synced accumulator only, so
after the scan the two accumulators differ in length (1 against 0). -/
theorem c2_counterexample_meta_line_breaks_alignment :
    (parseLrcAux (pySplitlines (normNl ("[ar:x]".data)))).synced.length ≠
      (parseLrcAux (pySplitlines (normNl ("[ar:x]".data)))).plain.length := by decide

/-- C2 (amended): after the line scan and before trimming, the synced
accumulator holds exactly as many entries as the plain accumulator plus
one per metadata-tag line (blank, credit and ordinary lines contribute
equally to both; only the `[xx:...]` metadata branch is one-sided, so
equality holds exactly for inputs without such lines). -/
theorem c2_amended_accumulator_alignment (lines : List (List Char)) :
    (parseLrcAux lines).synced.length =
      (parseLrcAux lines).plain.length + List.countP isMetaKept lines := by
  have h := foldl_parseStep_lengths lines ⟨[], [], false⟩
  unfold parseLrcAux
  simp at h
  omega

/-! ## Claim C3 -/

/-- C3: if any line of the (newline-normalized, split) input passes the
per-line instrumental-keyword scan — which strips the timestamp tags from
the stripped line, lower-cases the residue and tests containment of each
keyword, including `"instrumental"` — then the sticky flag survives to
the end of the scan and the parser returns the pair of empty strings,
whatever else the file contains. -/
theorem c3_instrumental_forces_empty_result (s : String)
    (h : (pySplitlines (normNl s.data)).any lineKwHit = true) :
    parse_lrc_file s = ("", "") := by
  have hp : (parseLrcAux (pySplitlines (normNl s.data))).isPureMusic = true := by
    unfold parseLrcAux
    rw [foldl_parseStep_pure]
    simp [h]
  unfold parse_lrc_file parse_lrc_content renderResult
  rw [hp]
  rfl

theorem c3_witness :
    ((pySplitlines (normNl ("hello\n[00:01.00]Instrumental\nworld").data)).any lineKwHit
        = true) ∧
      parse_lrc_file "hello\n[00:01.00]Instrumental\nworld" = ("", "") :=
  ⟨by decide, c3_instrumental_forces_empty_result _ (by decide)⟩

/-! ## Claim C10 -/

/-- C10: the keyword scan runs before the credit-line filter in the loop
body, so the line `[00:00.00]备注：instrumental` both matches
`CREDIT_LINE_RE` (and is hence discarded from the accumulators) and still
sets the sticky instrumental flag, which forces the whole parse to
`("", "")` whatever lines follow. -/
theorem c10_keyword_scan_precedes_credit_filter (rest : List (List Char)) :
    creditMatch (pyStrip ("[00:00.00]备注：instrumental".data)) = true ∧
      renderResult (parseLrcAux (("[00:00.00]备注：instrumental".data) :: rest)) =
        ([], []) := by
  refine ⟨by decide, ?_⟩
  have hp : (parseLrcAux (("[00:00.00]备注：instrumental".data) :: rest)).isPureMusic
      = true := by
    unfold parseLrcAux
    rw [foldl_parseStep_pure, List.any_cons,
      show lineKwHit ("[00:00.00]备注：instrumental".data) = true by decide]
    simp
  unfold renderResult
  rw [hp]
  rfl

/-! ## Claim C5 -/

/-- C5: parsing the two-line input whose first line is the credit line
`[00:12.34]作词：某人` and whose second is the lyric line
`[00:12.34]真正的歌词` removes the credit line from both outputs, keeps
the lyric line with its tag in the synced output, and keeps it
tag-stripped in the plain output. -/
theorem c5_credit_line_removed_lyric_kept :
    parse_lrc_file "[00:12.34]作词：某人\n[00:12.34]真正的歌词" =
      ("[00:12.34]真正的歌词", "真正的歌词") := by rfl

/-! ## Claim C1 -/

/-- C1 counterexample: with dry-run enabled, a cache hit still calls
`move_after_done` (upload.py line 543 has no dry-run guard), so a
filesystem mutation occurs; and in the external branch without auto-yes
the confirmation prompt (line 561) is shown before the dry-run check
(line 566). -/
theorem c1_counterexample_dry_run_not_short_circuit :
    (Event.moveFiles ∈
        process_track ⟨some ⟨"p", "s"⟩, none, none, false, false, false⟩ false true) ∧
      (Event.confirmPrompt ∈
        process_track ⟨none, some ⟨"p", "s"⟩, none, false, false, false⟩ false true) := by
  decide

/-- C1 (amended): with dry-run enabled no upload is ever attempted, and
outside the cached branch no relocation occurs (the external and local
branches stop after their preview/prompt step); but the cached branch
still relocates files, and the external branch still shows its
confirmation prompt when auto-confirm is off. -/
theorem c1_amended_dry_run_no_upload_no_move_outside_cache
    (c : Collab) (autoYes : Bool) (dryRun : Bool) (h : dryRun = true) :
    Event.uploadAttempt ∉ process_track c autoYes dryRun ∧
      (c.cached = none → Event.moveFiles ∉ process_track c autoYes dryRun) := by
  subst h
  unfold process_track localPhase
  rcases c with ⟨cached, ext, lrc, aE, aL, uOk⟩
  rcases cached with _ | r
  · rcases ext with _ | r
    · rcases lrc with _ | p
      · simp
      · simp
    · rcases lrc with _ | p <;> rcases aE with _ | _ <;> rcases autoYes with _ | _ <;> simp
  · simp

theorem c1_amended_witness :
    (true = true) ∧
      (Event.uploadAttempt ∉
          process_track ⟨none, some ⟨"p", "s"⟩, some "x", false, false, true⟩ false true ∧
        ((⟨none, some ⟨"p", "s"⟩, some "x", false, false, true⟩ : Collab).cached = none →
          Event.moveFiles ∉
            process_track ⟨none, some ⟨"p", "s"⟩, some "x", false, false, true⟩ false true)) :=
  ⟨rfl, c1_amended_dry_run_no_upload_no_move_outside_cache _ false true rfl⟩

/-! ## Claim C7 -/

/-- C7: in the external and local branches (no cache hit), if the upload
collaborator fails then `move_after_done` is never invoked: the track and
any matched lyric file stay where they are (relocation is the only
filesystem mutation of these branches and happens only under
`if uploader.upload(...)`, upload.py lines 573-579 and 606-610). -/
theorem c7_upload_failure_no_relocation
    (c : Collab) (autoYes : Bool) (dryRun : Bool)
    (hc : c.cached = none) (hu : c.uploadOk = false) :
    Event.moveFiles ∉ process_track c autoYes dryRun := by
  unfold process_track localPhase
  rcases c with ⟨cached, ext, lrc, aE, aL, uOk⟩
  simp at hc hu
  subst hc
  subst hu
  rcases ext with _ | r <;>
    rcases lrc with _ | p <;>
      rcases aE with _ | _ <;>
        rcases aL with _ | _ <;>
          rcases autoYes with _ | _ <;>
            rcases dryRun with _ | _ <;> simp

theorem c7_witness :
    ((⟨none, some ⟨"p", "s"⟩, some "x", true, true, false⟩ : Collab).cached = none ∧
        (⟨none, some ⟨"p", "s"⟩, some "x", true, true, false⟩ : Collab).uploadOk = false) ∧
      Event.moveFiles ∉
        process_track ⟨none, some ⟨"p", "s"⟩, some "x", true, true, false⟩ true false :=
  ⟨⟨rfl, rfl⟩, c7_upload_failure_no_relocation _ true false rfl rfl⟩

/-! ## Claim C9 -/

theorem pyStrip_cons_append (c : Char) (t rem : List Char)
    (hc : pyIsSpace c = false) (hrem : ∃ x ∈ rem, pyIsSpace x = false) :
    pyStrip (c :: (t ++ rem)) =
      c :: (t ++ (rem.reverse.dropWhile pyIsSpace).reverse) := by
  unfold pyStrip
  rw [List.dropWhile_cons_of_neg (by simp [hc])]
  rw [show (c :: (t ++ rem)).reverse = rem.reverse ++ (t.reverse ++ [c]) by simp]
  rw [List.dropWhile_append]
  have hne : ¬ (rem.reverse.dropWhile pyIsSpace).isEmpty = true := by
    rw [List.isEmpty_iff, List.dropWhile_eq_nil_iff]
    intro hall
    obtain ⟨x, hx, hfx⟩ := hrem
    have := hall x (by simp [hx])
    rw [this] at hfx
    exact absurd hfx (by simp)
  rw [if_neg hne]
  simp

theorem creditKeyTail_append (c0 : Char) (hc0 : c0 = ':' ∨ c0 = '：') :
    ∀ (ks rest : List Char), (∀ x ∈ ks, pyIsSpace x = false ∧ x ≠ ':' ∧ x ≠ '：') →
      rest ≠ [] → creditKeyTail (ks ++ c0 :: rest) = true := by
  intro ks
  induction ks with
  | nil =>
    intro rest _ hrest
    rw [List.nil_append]
    unfold creditKeyTail
    rcases hc0 with h | h <;> subst h <;> simp [hrest]
  | cons k ks ih =>
    intro rest hk hrest
    obtain ⟨hw, hne1, hne2⟩ := hk k (List.mem_cons_self _ _)
    rw [List.cons_append]
    unfold creditKeyTail
    rw [if_neg (by simp [hne1, hne2]), if_neg (by simp [hw])]
    exact ih rest (fun x hx => hk x (List.mem_cons_of_mem _ hx)) hrest

/-- C9: the credit-line pattern puts no length bound on the key, so every
line made of one leading timestamp tag, a non-empty colon-free
whitespace-free prefix, a colon (ASCII or full-width) and a remainder
with visible content matches `CREDIT_LINE_RE` and is discarded from both
accumulators by the scan loop — including ordinary lyric lines such as
`[00:10.00]Baby: listen to me`. -/
theorem c9_credit_regex_overbroad
    (st : ParseState) (key rem : List Char) (c0 : Char)
    (hkey : key ≠ [])
    (hkchars : ∀ x ∈ key, pyIsSpace x = false ∧ x ≠ ':' ∧ x ≠ '：')
    (hc0 : c0 = ':' ∨ c0 = '：')
    (hrem : ∃ x ∈ rem, pyIsSpace x = false) :
    creditMatch (pyStrip (['[', '0', '0', ':', '1', '0', '.', '0', '0', ']']
        ++ key ++ c0 :: rem)) = true ∧
      (parseStep st (['[', '0', '0', ':', '1', '0', '.', '0', '0', ']']
          ++ key ++ c0 :: rem)).synced = st.synced ∧
      (parseStep st (['[', '0', '0', ':', '1', '0', '.', '0', '0', ']']
          ++ key ++ c0 :: rem)).plain = st.plain := by
  obtain ⟨k, ks, rfl⟩ : ∃ k ks, key = k :: ks := by
    cases key with
    | nil => exact absurd rfl hkey
    | cons k ks => exact ⟨k, ks, rfl⟩
  obtain ⟨hwk, hk1, hk2⟩ := hkchars k (List.mem_cons_self _ _)
  set rem2 := (rem.reverse.dropWhile pyIsSpace).reverse with hrem2
  have hrem2ne : rem2 ≠ [] := by
    rw [hrem2]
    simp only [ne_eq, List.reverse_eq_nil_iff, List.dropWhile_eq_nil_iff]
    intro hall
    obtain ⟨x, hx, hfx⟩ := hrem
    have := hall x (by simp [hx])
    rw [this] at hfx
    exact absurd hfx (by simp)
  have hstrip : pyStrip (['[', '0', '0', ':', '1', '0', '.', '0', '0', ']']
      ++ (k :: ks) ++ c0 :: rem) =
      ['[', '0', '0', ':', '1', '0', '.', '0', '0', ']'] ++ (k :: ks) ++ c0 :: rem2 := by
    have h0 := pyStrip_cons_append '['
      (['0', '0', ':', '1', '0', '.', '0', '0', ']'] ++ (k :: ks) ++ [c0]) rem
      (by decide)
      hrem
    simp only [List.append_assoc, List.cons_append, List.nil_append] at h0 ⊢
    exact h0
  have hcm : creditMatch (['[', '0', '0', ':', '1', '0', '.', '0', '0', ']']
      ++ (k :: ks) ++ c0 :: rem2) = true := by
    have htag : ∀ X : List Char,
        creditTagEnd (['[', '0', '0', ':', '1', '0', '.', '0', '0', ']'] ++ X) = some X :=
      fun X => rfl
    unfold creditMatch
    rw [show ['[', '0', '0', ':', '1', '0', '.', '0', '0', ']'] ++ (k :: ks) ++ c0 :: rem2 =
      ['[', '0', '0', ':', '1', '0', '.', '0', '0', ']'] ++ (k :: (ks ++ c0 :: rem2)) by simp]
    rw [htag]
    show (match List.dropWhile pyIsSpace (k :: (ks ++ c0 :: rem2)) with
      | [] => false
      | c :: cs => if c = ':' then false else creditKeyTail cs) = true
    rw [List.dropWhile_cons_of_neg (by simp [hwk])]
    show (if k = ':' then false else creditKeyTail (ks ++ c0 :: rem2)) = true
    rw [if_neg hk1]
    exact creditKeyTail_append c0 hc0 ks rem2
      (fun x hx => hkchars x (List.mem_cons_of_mem _ hx)) hrem2ne
  have hne : (pyStrip (['[', '0', '0', ':', '1', '0', '.', '0', '0', ']']
      ++ (k :: ks) ++ c0 :: rem)).isEmpty = false := by
    rw [hstrip]; simp
  have hcm2 : creditMatch (pyStrip (['[', '0', '0', ':', '1', '0', '.', '0', '0', ']']
      ++ (k :: ks) ++ c0 :: rem)) = true := by
    rw [hstrip]; exact hcm
  refine ⟨hcm2, ?_, ?_⟩ <;>
    · unfold parseStep
      simp only [hne, Bool.false_eq_true, if_false, hcm2, if_true]

theorem c9_witness :
    ((['B', 'a', 'b', 'y'] : List Char) ≠ [] ∧
        (∀ x ∈ (['B', 'a', 'b', 'y'] : List Char),
          pyIsSpace x = false ∧ x ≠ ':' ∧ x ≠ '：') ∧
        (∃ x ∈ (" listen to me".data), pyIsSpace x = false)) ∧
      creditMatch (pyStrip (['[', '0', '0', ':', '1', '0', '.', '0', '0', ']']
        ++ ['B', 'a', 'b', 'y'] ++ ':' :: (" listen to me".data))) = true ∧
      (parseStep ⟨[], [], false⟩ (['[', '0', '0', ':', '1', '0', '.', '0', '0', ']']
        ++ ['B', 'a', 'b', 'y'] ++ ':' :: (" listen to me".data))).synced = [] ∧
      (parseStep ⟨[], [], false⟩ (['[', '0', '0', ':', '1', '0', '.', '0', '0', ']']
        ++ ['B', 'a', 'b', 'y'] ++ ':' :: (" listen to me".data))).plain = [] :=
  ⟨⟨by decide, by decide, by decide⟩,
    (c9_credit_regex_overbroad ⟨[], [], false⟩ ['B', 'a', 'b', 'y'] (" listen to me".data)
      ':' (by decide) (by decide) (Or.inl rfl) (by decide)).1,
    (c9_credit_regex_overbroad ⟨[], [], false⟩ ['B', 'a', 'b', 'y'] (" listen to me".data)
      ':' (by decide) (by decide) (Or.inl rfl) (by decide)).2.1,
    (c9_credit_regex_overbroad ⟨[], [], false⟩ ['B', 'a', 'b', 'y'] (" listen to me".data)
      ':' (by decide) (by decide) (Or.inl rfl) (by decide)).2.2⟩

/-! ## Claim C4 -/

theorem candFun_some_iff (sim : List Char → List Char → ℚ) (t : List Char)
    (mas : List (List Char)) (stem : List Char) (c : List Char × ℚ) :
    (candFun sim t mas stem = some c) ↔
      (candAccepted sim t mas stem ∧
        c = (stem, candScore sim t (normalize_title_loose (parse_lrc_filename stem).2))) := by
  unfold candFun
  by_cases h1 : (parse_lrc_filename stem).2.isEmpty = true
  · simp [candAccepted, h1, List.isEmpty_iff.mp h1]
  · by_cases h2 : (parse_lrc_filename stem).1.isEmpty = true
    · simp [candAccepted, h1, h2, List.isEmpty_iff.mp h2]
    · by_cases h3 : match_artists mas (parse_lrc_filename stem).1 = true
      · by_cases h4 :
          (normalize_title_loose (parse_lrc_filename stem).2).isEmpty = true
        · simp [candAccepted, h1, h2, h3, h4, List.isEmpty_iff.mp h4]
        · by_cases h5 :
            candScore sim t (normalize_title_loose (parse_lrc_filename stem).2) < 3/5
          · simp [candAccepted, h1, h2, h3, h4, h5]
          · simp only [h1, h2, Bool.or_self, Bool.false_eq_true, if_false, h3,
              Bool.not_true, h4, if_neg h5, Option.some.injEq]
            constructor
            · intro h
              refine ⟨⟨?_, ?_, h3, ?_, h5⟩, h.symm⟩
              · simpa using h1
              · simpa using h2
              · simpa using h4
            · intro ⟨_, h⟩
              exact h.symm
      · simp [candAccepted, h1, h2, h3, Bool.not_eq_true]

set_option maxHeartbeats 1000000 in
/-- C4: a pair `(stem, s)` is among the returned candidates exactly when
the track's loose title is non-empty, the stem is in the pool and passes
the artist and title filters, and `s` is the source's score for it —
`0.95` when one normalized title contains the other and the
`SequenceMatcher` ratio `sim` otherwise, with scores below `0.6`
excluded; and the returned list is sorted by score in descending
order. -/
theorem c4_candidate_scoring_and_descending_order
    (sim : List Char → List Char → ℚ) (track artist : List Char)
    (pool : List (List Char)) (c : List Char × ℚ) :
    (c ∈ find_lrc_candidates sim track artist pool ↔
      normalize_title_loose track ≠ [] ∧ c.1 ∈ pool ∧
        candAccepted sim (normalize_title_loose track) (split_artists artist) c.1 ∧
        c.2 = candScore sim (normalize_title_loose track)
          (normalize_title_loose (parse_lrc_filename c.1).2)) ∧
      List.Pairwise (fun a b : List Char × ℚ => b.2 ≤ a.2)
        (find_lrc_candidates sim track artist pool) := by
  obtain ⟨c1, c2⟩ := c
  unfold find_lrc_candidates
  by_cases ht : (normalize_title_loose track).isEmpty = true
  · simp [ht, List.isEmpty_iff.mp ht]
  · rw [if_neg ht]
    constructor
    · rw [List.Perm.mem_iff (List.perm_insertionSort _ _)]
      rw [List.mem_filterMap]
      dsimp only
      constructor
      · rintro ⟨stem, hstem, hf⟩
        obtain ⟨hacc, hceq⟩ :=
          (candFun_some_iff sim (normalize_title_loose track)
            (split_artists artist) stem (c1, c2)).mp hf
        rw [Prod.mk.injEq] at hceq
        obtain ⟨h1, h2⟩ := hceq
        subst h1
        exact ⟨by simpa using ht, hstem, hacc, h2⟩
      · rintro ⟨htne, hpool, hacc, hsc⟩
        refine ⟨c1, hpool,
          (candFun_some_iff sim (normalize_title_loose track)
            (split_artists artist) c1 (c1, c2)).mpr ⟨hacc, ?_⟩⟩
        rw [Prod.mk.injEq]
        exact ⟨rfl, hsc⟩
    · haveI hT : IsTotal (List Char × ℚ) (fun a b => b.2 ≤ a.2) :=
        ⟨fun a b => le_total b.2 a.2⟩
      haveI hR : IsTrans (List Char × ℚ) (fun a b => b.2 ≤ a.2) :=
        ⟨fun _ _ _ hab hbc => le_trans hbc hab⟩
      exact List.sorted_insertionSort _ _

/-! ## Claim C8: facts about paths and the pruning loop -/

theorem strictUnder_iff {root d : FPath} :
    strictUnder root d = true ↔ root <+: d ∧ d ≠ root := by
  unfold strictUnder
  simp

theorem hasChild_iff {s : FS} {d : FPath} :
    hasChild s d = true ↔
      ∃ p, (p ∈ s.dirs ∨ p ∈ s.files) ∧ p.length = d.length + 1 ∧ d <+: p := by
  unfold hasChild
  simp
  constructor
  · rintro (⟨p, hp, h⟩ | ⟨p, hp, h⟩)
    · exact ⟨p, Or.inl hp, h⟩
    · exact ⟨p, Or.inr hp, h⟩
  · rintro ⟨p, hp | hp, h⟩
    · exact Or.inl ⟨p, hp, h⟩
    · exact Or.inr ⟨p, hp, h⟩

theorem hasFileBelow_iff {fs : FS} {d : FPath} :
    hasFileBelow fs d = true ↔ ∃ f ∈ fs.files, d <+: f ∧ f ≠ d := by
  unfold hasFileBelow
  simp

theorem length_lt_of_proper {d c : FPath} (h : d <+: c) (hne : c ≠ d) :
    d.length < c.length := by
  obtain ⟨t, rfl⟩ := h
  cases t with
  | nil => exact absurd (by simp) hne
  | cons x xs => simp

theorem prefix_take_of {d f : FPath} (h : d <+: f) (n : Nat) (hn : d.length ≤ n) :
    d <+: f.take n := by
  rw [List.prefix_iff_eq_take] at h ⊢
  rw [List.take_take, Nat.min_eq_left hn]
  exact h

/-- The deletion loop of `delete_empty_dirs`, processed over any
deepest-first enumeration `todo` of the not-yet-visited strict
descendants of `root`: a visited directory survives exactly when some
file lies strictly below it, files and unvisited directories are
untouched. -/
theorem prune_fold_characterization
    (fs : FS) (root : FPath)
    (hnd : fs.dirs.Nodup)
    (hclosed : ∀ f ∈ fs.files, ∀ n, n < f.length → f.take n ∈ fs.dirs) :
    ∀ (todo done : List FPath) (s : FS),
      (∀ d ∈ done ++ todo, d ∈ fs.dirs ∧ strictUnder root d = true) →
      (∀ d ∈ fs.dirs, strictUnder root d = true → d ∈ done ++ todo) →
      List.Pairwise (fun a b : FPath => b.length ≤ a.length) (done ++ todo) →
      (done ++ todo).Nodup →
      s.files = fs.files →
      s.dirs.Sublist fs.dirs →
      (∀ d ∈ todo, d ∈ s.dirs) →
      (∀ d ∈ fs.dirs, d ∉ done → d ∉ todo → d ∈ s.dirs) →
      (∀ d ∈ done, (d ∈ s.dirs ↔ hasFileBelow fs d = true)) →
      ((todo.foldl pruneStep s).files = fs.files ∧
        (todo.foldl pruneStep s).dirs.Sublist fs.dirs ∧
        (∀ d ∈ fs.dirs, d ∉ done → d ∉ todo → d ∈ (todo.foldl pruneStep s).dirs) ∧
        (∀ d ∈ done ++ todo,
          (d ∈ (todo.foldl pruneStep s).dirs ↔ hasFileBelow fs d = true))) := by
  intro todo
  induction todo with
  | nil =>
    intro done s _ _ _ _ hfiles hsub _ huntouched hdone
    refine ⟨hfiles, hsub, fun d hd h1 _ => huntouched d hd h1 (by simp), ?_⟩
    intro d hd
    exact hdone d (by simpa using hd)
  | cons d rest ih =>
    intro done s hmem hcov hsorted hndl hfiles hsub htodo huntouched hdone
    have hdmem : d ∈ done ++ d :: rest := by simp
    obtain ⟨hdfs, hdsu⟩ := hmem d hdmem
    obtain ⟨hdpre, hdne⟩ := strictUnder_iff.mp hdsu
    have hpw := List.pairwise_append.mp hsorted
    have hrest_len : ∀ x ∈ rest, x.length ≤ d.length :=
      (List.pairwise_cons.mp hpw.2.1).1
    have hdone_len : ∀ x ∈ done, d.length ≤ x.length :=
      fun x hx => hpw.2.2 x hx d (by simp)
    have hdnotin : d ∉ rest ∧ d ∉ done := by
      have h1 := hndl
      rw [List.nodup_append] at h1
      refine ⟨(List.nodup_cons.mp h1.2.1).1, ?_⟩
      intro hd2
      exact h1.2.2 hd2 (by simp)
    -- the directory is empty when visited exactly when no file lies below it
    have hkey : hasChild s d = hasFileBelow fs d := by
      by_cases hfb : hasFileBelow fs d = true
      · rw [hfb]
        obtain ⟨f, hffs, hdf, hfd⟩ := hasFileBelow_iff.mp hfb
        have hdlt : d.length < f.length := length_lt_of_proper hdf hfd
        rw [hasChild_iff]
        by_cases hcase : d.length + 1 = f.length
        · refine ⟨f, Or.inr ?_, hcase.symm, hdf⟩
          rw [hfiles]
          exact hffs
        · have hlt : d.length + 1 < f.length := by omega
          have hcfs : f.take (d.length + 1) ∈ fs.dirs := hclosed f hffs _ hlt
          have hclen : (f.take (d.length + 1)).length = d.length + 1 := by
            simp [List.length_take]
            omega
          have hdc : d <+: f.take (d.length + 1) :=
            prefix_take_of hdf _ (Nat.le_succ _)
          have hcf : f.take (d.length + 1) <+: f := List.take_prefix _ _
          have hfnec : f ≠ f.take (d.length + 1) := by
            intro h
            have := congrArg List.length h
            rw [hclen] at this
            omega
          have hcsu : strictUnder root (f.take (d.length + 1)) = true := by
            rw [strictUnder_iff]
            refine ⟨hdpre.trans hdc, ?_⟩
            intro h
            have h1 := hdpre.length_le
            have := congrArg List.length h
            rw [hclen] at this
            omega
          have hcin := hcov _ hcfs hcsu
          have hcdone : f.take (d.length + 1) ∈ done := by
            rcases List.mem_append.mp hcin with h | h
            · exact h
            · rcases List.mem_cons.mp h with h | h
              · exfalso
                have := congrArg List.length h
                rw [hclen] at this
                omega
              · exfalso
                have := hrest_len _ h
                omega
          have hcs : f.take (d.length + 1) ∈ s.dirs :=
            (hdone _ hcdone).mpr (hasFileBelow_iff.mpr ⟨f, hffs, hcf, hfnec⟩)
          exact ⟨f.take (d.length + 1), Or.inl hcs, hclen, hdc⟩
      · have hfbf : hasFileBelow fs d = false := by simpa using hfb
        rw [hfbf]
        by_contra hch
        have hch2 : hasChild s d = true := by simpa using hch
        obtain ⟨p, hp, hplen, hdp⟩ := hasChild_iff.mp hch2
        have hpne : p ≠ d := by
          intro h
          rw [h] at hplen
          omega
        rcases hp with hpd | hpf
        · have hpfs : p ∈ fs.dirs := hsub.subset hpd
          have hpsu : strictUnder root p = true := by
            rw [strictUnder_iff]
            refine ⟨hdpre.trans hdp, ?_⟩
            intro h
            have h1 := hdpre.length_le
            have := congrArg List.length h
            omega
          have hpin := hcov p hpfs hpsu
          have hpdone : p ∈ done := by
            rcases List.mem_append.mp hpin with h | h
            · exact h
            · rcases List.mem_cons.mp h with h | h
              · exact absurd h hpne
              · exfalso
                have := hrest_len _ h
                omega
          obtain ⟨f, hffs, hpf2, hfnep⟩ :=
            hasFileBelow_iff.mp ((hdone p hpdone).mp hpd)
          have hplt : p.length < f.length := length_lt_of_proper hpf2 hfnep
          have : hasFileBelow fs d = true := by
            rw [hasFileBelow_iff]
            refine ⟨f, hffs, hdp.trans hpf2, ?_⟩
            intro h
            have := congrArg List.length h
            omega
          rw [this] at hfbf
          cases hfbf
        · rw [hfiles] at hpf
          have : hasFileBelow fs d = true :=
            hasFileBelow_iff.mpr ⟨p, hpf, hdp, hpne⟩
          rw [this] at hfbf
          cases hfbf
    rw [List.foldl_cons]
    by_cases hfb : hasFileBelow fs d = true
    · -- the directory has a child: it is kept
      have hs2 : pruneStep s d = s := by
        unfold pruneStep
        rw [hkey, hfb]
        simp
      rw [hs2]
      have hres := ih (done ++ [d]) s
        (by intro x hx; exact hmem x (by simpa [List.append_assoc] using hx))
        (by intro x hx hsu; have := hcov x hx hsu; simpa [List.append_assoc] using this)
        (by rw [List.append_assoc]; simpa using hsorted)
        (by rw [List.append_assoc]; simpa using hndl)
        hfiles hsub
        (fun x hx => htodo x (List.mem_cons_of_mem _ hx))
        (by
          intro x hx h1 h2
          refine huntouched x hx (fun h => h1 (by simp [h])) ?_
          intro h
          rcases List.mem_cons.mp h with h | h
          · exact h1 (by simp [h])
          · exact h2 h)
        (by
          intro x hx
          rcases List.mem_append.mp hx with h | h
          · exact hdone x h
          · have hxd : x = d := by simpa using h
            subst hxd
            constructor
            · intro _
              exact hfb
            · intro _
              exact htodo x (by simp))
      refine ⟨hres.1, hres.2.1, ?_, ?_⟩
      · intro x hx h1 h2
        refine hres.2.2.1 x hx ?_ (fun h => h2 (List.mem_cons_of_mem _ h))
        intro h
        rcases List.mem_append.mp h with h | h
        · exact h1 h
        · exact h2 (by simp [show x = d by simpa using h])
      · intro x hx
        refine hres.2.2.2 x ?_
        rcases List.mem_append.mp hx with h | h
        · exact List.mem_append.mpr (Or.inl (List.mem_append.mpr (Or.inl h)))
        · rcases List.mem_cons.mp h with h | h
          · exact List.mem_append.mpr (Or.inl (List.mem_append.mpr (Or.inr (by simp [h]))))
          · exact List.mem_append.mpr (Or.inr h)
    · -- the directory is empty: it is removed
      have hfbf : hasFileBelow fs d = false := by simpa using hfb
      have hs2 : pruneStep s d = { s with dirs := s.dirs.erase d } := by
        unfold pruneStep
        rw [hkey, hfbf]
        simp
      rw [hs2]
      have hsnd : s.dirs.Nodup := hsub.nodup hnd
      have herase : ∀ x, x ∈ s.dirs.erase d ↔ x ≠ d ∧ x ∈ s.dirs :=
        fun x => hsnd.mem_erase_iff
      have hres := ih (done ++ [d]) { s with dirs := s.dirs.erase d }
        (by intro x hx; exact hmem x (by simpa [List.append_assoc] using hx))
        (by intro x hx hsu; have := hcov x hx hsu; simpa [List.append_assoc] using this)
        (by rw [List.append_assoc]; simpa using hsorted)
        (by rw [List.append_assoc]; simpa using hndl)
        hfiles
        ((List.erase_sublist _ _).trans hsub)
        (by
          intro x hx
          rw [herase]
          exact ⟨fun h => hdnotin.1 (h ▸ hx), htodo x (List.mem_cons_of_mem _ hx)⟩)
        (by
          intro x hx h1 h2
          rw [herase]
          refine ⟨fun h => h1 (by simp [h]), ?_⟩
          refine huntouched x hx (fun h => h1 (by simp [h])) ?_
          intro h
          rcases List.mem_cons.mp h with h | h
          · exact h1 (by simp [h])
          · exact h2 h)
        (by
          intro x hx
          rcases List.mem_append.mp hx with h | h
          · rw [herase]
            have hxd : x ≠ d := fun he => hdnotin.2 (he ▸ h)
            have := hdone x h
            simp [hxd, this]
          · have hxd : x = d := by simpa using h
            subst hxd
            rw [herase]
            simp [hfbf])
      refine ⟨hres.1, hres.2.1, ?_, ?_⟩
      · intro x hx h1 h2
        refine hres.2.2.1 x hx ?_ (fun h => h2 (List.mem_cons_of_mem _ h))
        intro h
        rcases List.mem_append.mp h with h | h
        · exact h1 h
        · exact h2 (by simp [show x = d by simpa using h])
      · intro x hx
        refine hres.2.2.2 x ?_
        rcases List.mem_append.mp hx with h | h
        · exact List.mem_append.mpr (Or.inl (List.mem_append.mpr (Or.inl h)))
        · rcases List.mem_cons.mp h with h | h
          · exact List.mem_append.mpr (Or.inl (List.mem_append.mpr (Or.inr (by simp [h]))))
          · exact List.mem_append.mpr (Or.inr h)

/-- C8: `delete_empty_dirs` (as called by `move_after_done`, with
`keep_root=True`) never touches files, never removes the root itself,
never touches directories outside the root's subtree, and — because the
materialized directory list is processed deepest first — prunes chains of
newly-empty directories completely: a strict descendant of the root
survives exactly when some file lies strictly below it. -/
theorem c8_prune_deepest_first_keeps_root
    (fs : FS) (root : FPath)
    (hnd : fs.dirs.Nodup)
    (hclosed : ∀ f ∈ fs.files, ∀ n, n < f.length → f.take n ∈ fs.dirs)
    (hroot : root ∈ fs.dirs) :
    (delete_empty_dirs fs root).files = fs.files ∧
      root ∈ (delete_empty_dirs fs root).dirs ∧
      (∀ d ∈ fs.dirs, strictUnder root d = false →
        d ∈ (delete_empty_dirs fs root).dirs) ∧
      (∀ d, strictUnder root d = true →
        (d ∈ (delete_empty_dirs fs root).dirs ↔
          d ∈ fs.dirs ∧ hasFileBelow fs d = true)) := by
  unfold delete_empty_dirs
  rw [if_pos hroot]
  set ds := sortDeep (fs.dirs.filter (fun d => strictUnder root d)) with hds
  have hperm : ds.Perm (fs.dirs.filter (fun d => strictUnder root d)) := by
    rw [hds]
    exact List.perm_insertionSort _ _
  have hmem : ∀ x ∈ ds, x ∈ fs.dirs ∧ strictUnder root x = true := by
    intro x hx
    have h := hperm.mem_iff.mp hx
    exact ⟨List.mem_of_mem_filter h, by simpa using List.of_mem_filter h⟩
  have hcov : ∀ x ∈ fs.dirs, strictUnder root x = true → x ∈ ds := by
    intro x hx hsu
    exact hperm.mem_iff.mpr (List.mem_filter.mpr ⟨hx, by simpa using hsu⟩)
  have hsorted : List.Pairwise (fun a b : FPath => b.length ≤ a.length) ds := by
    haveI hT : IsTotal FPath (fun a b : FPath => b.length ≤ a.length) :=
      ⟨fun a b => le_total b.length a.length⟩
    haveI hR : IsTrans FPath (fun a b : FPath => b.length ≤ a.length) :=
      ⟨fun _ _ _ hab hbc => le_trans hbc hab⟩
    rw [hds]
    exact List.sorted_insertionSort _ _
  have hndds : ds.Nodup := hperm.nodup_iff.mpr (hnd.filter _)
  have hres := prune_fold_characterization fs root hnd hclosed ds [] fs
    (by intro x hx; exact hmem x (by simpa using hx))
    (by intro x hx hsu; simpa using hcov x hx hsu)
    (by simpa using hsorted)
    (by simpa using hndds)
    rfl (List.Sublist.refl _)
    (fun x hx => (hmem x hx).1)
    (fun x hx _ _ => hx)
    (by intro x hx; simp at hx)
  obtain ⟨h1, h2, h3, h4⟩ := hres
  refine ⟨h1, ?_, ?_, ?_⟩
  · refine h3 root hroot (by simp) ?_
    intro h
    have h5 := (hmem root h).2
    rw [strictUnder_iff] at h5
    exact h5.2 rfl
  · intro x hx hsu
    refine h3 x hx (by simp) ?_
    intro h
    rw [(hmem x h).2] at hsu
    cases hsu
  · intro x hsu
    by_cases hxfs : x ∈ fs.dirs
    · have h5 := h4 x (by simpa using hcov x hxfs hsu)
      rw [h5]
      simp [hxfs]
    · constructor
      · intro h
        exact absurd (h2.subset h) hxfs
      · rintro ⟨h, -⟩
        exact absurd h hxfs

theorem c8_witness :
    (([[], ["r"], ["r", "a"], ["r", "a", "b"], ["r", "c"]] : List FPath).Nodup ∧
        (∀ f ∈ (⟨[[], ["r"], ["r", "a"], ["r", "a", "b"], ["r", "c"]],
            [["r", "c", "x"]]⟩ : FS).files,
          ∀ n, n < f.length →
            f.take n ∈ (⟨[[], ["r"], ["r", "a"], ["r", "a", "b"], ["r", "c"]],
              [["r", "c", "x"]]⟩ : FS).dirs) ∧
        ["r"] ∈ (⟨[[], ["r"], ["r", "a"], ["r", "a", "b"], ["r", "c"]],
          [["r", "c", "x"]]⟩ : FS).dirs) ∧
      ((delete_empty_dirs ⟨[[], ["r"], ["r", "a"], ["r", "a", "b"], ["r", "c"]],
          [["r", "c", "x"]]⟩ ["r"]).files =
          (⟨[[], ["r"], ["r", "a"], ["r", "a", "b"], ["r", "c"]],
            [["r", "c", "x"]]⟩ : FS).files ∧
        ["r"] ∈ (delete_empty_dirs ⟨[[], ["r"], ["r", "a"], ["r", "a", "b"], ["r", "c"]],
          [["r", "c", "x"]]⟩ ["r"]).dirs ∧
        (∀ d ∈ (⟨[[], ["r"], ["r", "a"], ["r", "a", "b"], ["r", "c"]],
            [["r", "c", "x"]]⟩ : FS).dirs, strictUnder ["r"] d = false →
          d ∈ (delete_empty_dirs ⟨[[], ["r"], ["r", "a"], ["r", "a", "b"], ["r", "c"]],
            [["r", "c", "x"]]⟩ ["r"]).dirs) ∧
        (∀ d, strictUnder ["r"] d = true →
          (d ∈ (delete_empty_dirs ⟨[[], ["r"], ["r", "a"], ["r", "a", "b"], ["r", "c"]],
              [["r", "c", "x"]]⟩ ["r"]).dirs ↔
            d ∈ (⟨[[], ["r"], ["r", "a"], ["r", "a", "b"], ["r", "c"]],
              [["r", "c", "x"]]⟩ : FS).dirs ∧
              hasFileBelow ⟨[[], ["r"], ["r", "a"], ["r", "a", "b"], ["r", "c"]],
                [["r", "c", "x"]]⟩ d = true))) :=
  ⟨⟨by decide, by decide, by decide⟩,
    c8_prune_deepest_first_keeps_root
      ⟨[[], ["r"], ["r", "a"], ["r", "a", "b"], ["r", "c"]], [["r", "c", "x"]]⟩
      ["r"] (by decide) (by decide) (by decide)⟩
